import Mathlib

/-!
Shallow embedding of the ingestion core of `TidePlotter.py`:
the tolerant key-value message parser (`parse_message`), the CSV
persistence layer (`write_data_to_file` / `read_data_from_file`), the
serial read-loop body of `SerialReaderThread.run`, and the plot-window
slice of `MainWindow.update_plot`.

Numbers: Python `int` is modelled as `ℤ`.  Python `float` is modelled as
`ℚ`; every float this pipeline produces is an exact multiple of 1/1000
(`int(value) / 1000.0`) or the result of `float()` applied to a decimal
string, and at these magnitudes the decimal literal, the IEEE double it
rounds to, and its shortest round-trip repr are in exact one-to-one
correspondence, so exact rational arithmetic is a faithful model of the
observable float behaviour.  Strings are `String`/`List Char`; the model
treats ASCII data (the regex classes `[A-Za-z]` and `\d` are modelled as
the ASCII classes, which is exact on ASCII frames).
-/

/-- The decimal digit character for `n % 10` (used to model Python's
decimal rendering of numbers). -/
def digChar (n : ℕ) : Char :=
  match n % 10 with
  | 0 => '0' | 1 => '1' | 2 => '2' | 3 => '3' | 4 => '4'
  | 5 => '5' | 6 => '6' | 7 => '7' | 8 => '8' | _ => '9'

/-- Numeric value of a decimal digit character. -/
def charVal (c : Char) : ℕ := c.toNat - 48

theorem charVal_digChar (n : ℕ) : charVal (digChar n) = n % 10 := by
  have h : n % 10 < 10 := Nat.mod_lt _ (by norm_num)
  unfold digChar
  set k := n % 10 with hk
  interval_cases k <;> rfl

theorem isDigit_digChar (n : ℕ) : (digChar n).isDigit = true := by
  have h : n % 10 < 10 := Nat.mod_lt _ (by norm_num)
  unfold digChar
  set k := n % 10 with hk
  interval_cases k <;> rfl

/-- The numeric value of a big-endian list of decimal digit characters
(how Python's `int`/`float` read a digit string). -/
def natFromDigits (cs : List Char) : ℕ :=
  cs.foldl (fun a c => 10 * a + charVal c) 0

theorem natFromDigits_nil : natFromDigits [] = 0 := rfl

theorem foldl_digits_acc (cs : List Char) (a : ℕ) :
    cs.foldl (fun a c => 10 * a + charVal c) a =
      a * 10 ^ cs.length + natFromDigits cs := by
  induction cs generalizing a with
  | nil => simp [natFromDigits]
  | cons c cs ih =>
    simp only [List.foldl_cons, natFromDigits, List.length_cons]
    rw [ih, ih (10 * 0 + charVal c)]
    ring

theorem natFromDigits_append (xs ys : List Char) :
    natFromDigits (xs ++ ys) =
      natFromDigits xs * 10 ^ ys.length + natFromDigits ys := by
  unfold natFromDigits
  rw [List.foldl_append, foldl_digits_acc]
  rfl

theorem natFromDigits_concat (xs : List Char) (c : Char) :
    natFromDigits (xs ++ [c]) = 10 * natFromDigits xs + charVal c := by
  rw [natFromDigits_append]
  simp [natFromDigits, charVal]
  ring

/-- Fuel-driven decimal rendering of a natural number, big-endian
(the fuel only bounds the recursion; `natStr` supplies enough). -/
def natStrGo : ℕ → ℕ → List Char
  | 0, _ => []
  | fuel + 1, n => if n < 10 then [digChar n] else natStrGo fuel (n / 10) ++ [digChar n]

/-- Decimal digit string of a natural number, as Python's `str` writes it. -/
def natStr (n : ℕ) : List Char := natStrGo (n + 1) n

theorem natStrGo_spec (fuel : ℕ) : ∀ n, n < fuel →
    natFromDigits (natStrGo fuel n) = n ∧ natStrGo fuel n ≠ [] ∧
      (natStrGo fuel n).all Char.isDigit = true := by
  induction fuel with
  | zero => intro n h; omega
  | succ fuel ih =>
    intro n h
    by_cases h10 : n < 10
    · simp only [natStrGo, if_pos h10]
      refine ⟨?_, by simp, by simp [isDigit_digChar]⟩
      simp [natFromDigits, charVal_digChar]
      omega
    · have hn0 : 0 < n := by omega
      have hdiv : n / 10 < n := Nat.div_lt_self hn0 (by norm_num)
      have hfuel : n / 10 < fuel := by omega
      obtain ⟨hv, hne, hdig⟩ := ih (n / 10) hfuel
      simp only [natStrGo, if_neg h10]
      refine ⟨?_, by simp, ?_⟩
      · rw [natFromDigits_concat, hv, charVal_digChar]
        omega
      · simp only [List.all_append, hdig, Bool.true_and, List.all_cons,
          isDigit_digChar, List.all_nil, Bool.and_true]

theorem natFromDigits_natStr (n : ℕ) : natFromDigits (natStr n) = n :=
  (natStrGo_spec (n + 1) n (by omega)).1

theorem natStr_ne_nil (n : ℕ) : natStr n ≠ [] :=
  (natStrGo_spec (n + 1) n (by omega)).2.1

theorem natStr_all_digits (n : ℕ) : (natStr n).all Char.isDigit = true :=
  (natStrGo_spec (n + 1) n (by omega)).2.2

theorem takeWhile_all_append {p : Char → Bool} (xs ys : List Char)
    (hx : xs.all p = true) (hy : ∀ c ∈ ys.head?, p c = false) :
    (xs ++ ys).takeWhile p = xs := by
  induction xs with
  | nil =>
    cases ys with
    | nil => rfl
    | cons y ys =>
      have := hy y rfl
      simp [List.takeWhile_cons, this]
  | cons x xs ih =>
    simp only [List.all_cons, Bool.and_eq_true] at hx
    simp [List.takeWhile_cons, hx.1, ih hx.2]

theorem dropWhile_all_append {p : Char → Bool} (xs ys : List Char)
    (hx : xs.all p = true) (hy : ∀ c ∈ ys.head?, p c = false) :
    (xs ++ ys).dropWhile p = ys := by
  induction xs with
  | nil =>
    cases ys with
    | nil => rfl
    | cons y ys =>
      have := hy y rfl
      simp [List.dropWhile_cons, this]
  | cons x xs ih =>
    simp only [List.all_cons, Bool.and_eq_true] at hx
    simp [List.dropWhile_cons, hx.1, ih hx.2]

/-- Python `int(s)` on a string: an optional sign followed by a nonempty
run of decimal digits; anything else raises `ValueError`, modelled as
`none`.  (Python also strips whitespace and accepts underscores; the
strings this program converts never contain those.) -/
def pyInt (s : String) : Option ℤ :=
  match s.data with
  | [] => none
  | c :: ds =>
    if c = '-' then
      if !ds.isEmpty && ds.all Char.isDigit then some (-(natFromDigits ds : ℤ)) else none
    else if c = '+' then
      if !ds.isEmpty && ds.all Char.isDigit then some ((natFromDigits ds : ℤ)) else none
    else
      if (c :: ds).all Char.isDigit then some ((natFromDigits (c :: ds) : ℤ)) else none

/-- The unsigned core of Python `float(s)`: digits, an optional decimal
point, and fraction digits, with at least one digit in total; the value
is read exactly (the model works in `ℚ`, see the header comment). -/
def floatCore (cs : List Char) : Option ℚ :=
  let ip := cs.takeWhile Char.isDigit
  let rest := cs.dropWhile Char.isDigit
  match rest with
  | [] => if ip.isEmpty then none else some ((natFromDigits ip : ℚ))
  | '.' :: fr =>
    if fr.all Char.isDigit && !(ip.isEmpty && fr.isEmpty) then
      some ((natFromDigits ip : ℚ) + (natFromDigits fr : ℚ) / (10 : ℚ) ^ fr.length)
    else none
  | _ => none

/-- Python `float(s)`: optional sign then the unsigned core.  (Exponent
forms, `inf`/`nan` and surrounding whitespace are accepted by Python but
never occur in this program's data files; they are out of the model.) -/
def pyFloat (s : String) : Option ℚ :=
  match s.data with
  | [] => none
  | c :: cs =>
    if c = '-' then (floatCore cs).map (fun q => -q)
    else if c = '+' then floatCore cs
    else floatCore (c :: cs)

/-- Python `str` of an `int`: optional minus sign then decimal digits. -/
def intStr (z : ℤ) : List Char :=
  (if z < 0 then ['-'] else []) ++ natStr z.natAbs

/-- The integer number of thousandths of a rational whose denominator
divides 1000 (every float this pipeline handles is such a value). -/
def milliOf (q : ℚ) : ℤ := q.num * (1000 / (q.den : ℤ))

/-- The fractional digits Python's shortest round-trip float repr prints
for a value with `fr` thousandths in the fraction: three digits with
trailing zeros removed, but at least one digit. -/
def fracDigits (fr : ℕ) : List Char :=
  if fr % 10 ≠ 0 then [digChar (fr / 100), digChar (fr / 10), digChar fr]
  else if fr % 100 ≠ 0 then [digChar (fr / 100), digChar (fr / 10)]
  else [digChar (fr / 100)]

/-- Python `str` of a float that is an exact multiple of 1/1000: sign,
integer part, decimal point, trimmed fraction digits (the shortest
decimal that round-trips, which for these values is the exact decimal). -/
def floatStr (q : ℚ) : List Char :=
  let m := milliOf q
  let a := m.natAbs
  (if m < 0 then ['-'] else []) ++ natStr (a / 1000) ++ '.' :: fracDigits (a % 1000)

theorem pyInt_digits (ds : List Char) (neg : Bool)
    (hne : ds ≠ []) (hdig : ds.all Char.isDigit = true) :
    pyInt ⟨(if neg then ['-'] else []) ++ ds⟩ =
      some ((if neg then -1 else 1) * (natFromDigits ds : ℤ)) := by
  have hne' : ds.isEmpty = false := by
    cases ds with
    | nil => exact absurd rfl hne
    | cons a l => rfl
  cases neg with
  | true =>
    show pyInt ⟨'-' :: ds⟩ = _
    unfold pyInt
    simp [hne', hdig]
  | false =>
    cases ds with
    | nil => exact absurd rfl hne
    | cons c cs =>
      have hc : c.isDigit = true := by
        simp only [List.all_cons, Bool.and_eq_true] at hdig
        exact hdig.1
      have hc1 : c ≠ '-' := by
        intro h; rw [h] at hc; exact absurd hc (by decide)
      have hc2 : c ≠ '+' := by
        intro h; rw [h] at hc; exact absurd hc (by decide)
      show pyInt ⟨c :: cs⟩ = _
      unfold pyInt
      simp [hc1, hc2, hdig]

theorem milliOf_spec (q : ℚ) (hq : ∃ z : ℤ, q = (z : ℚ) / 1000) :
    ((milliOf q : ℤ) : ℚ) = q * 1000 := by
  have hden : (q.den : ℤ) ∣ 1000 := by
    obtain ⟨z, hz⟩ := hq
    have h2 : q = Rat.divInt z 1000 := by
      rw [hz, ← Rat.intCast_div_eq_divInt]
      norm_num
    rw [h2]
    exact Rat.den_dvd z 1000
  obtain ⟨k, hk⟩ := hden
  have hd0 : (q.den : ℤ) ≠ 0 := by
    exact_mod_cast q.den_nz
  have hdiv : (1000 : ℤ) / (q.den : ℤ) = k := by
    rw [hk]
    exact Int.mul_ediv_cancel_left k hd0
  have hnum : (q.num : ℚ) = q * (q.den : ℚ) := by
    field_simp [Rat.num_div_den]
  unfold milliOf
  rw [hdiv]
  push_cast
  rw [hnum]
  have hk' : ((1000 : ℤ) : ℚ) = ((q.den : ℤ) : ℚ) * (k : ℚ) := by
    exact_mod_cast congrArg (fun z : ℤ => (z : ℚ)) hk
  push_cast at hk'
  rw [hk']
  ring

theorem floatCore_digits_dot (ipd frd : List Char)
    (hip : ipd.all Char.isDigit = true) (hipne : ipd ≠ [])
    (hfr : frd.all Char.isDigit = true) :
    floatCore (ipd ++ '.' :: frd) =
      some ((natFromDigits ipd : ℚ) + (natFromDigits frd : ℚ) / (10 : ℚ) ^ frd.length) := by
  have hdot : ∀ c ∈ (('.' :: frd) : List Char).head?, Char.isDigit c = false := by
    intro c hc
    simp only [List.head?_cons, Option.mem_def, Option.some.injEq] at hc
    rw [← hc]
    rfl
  have ht := takeWhile_all_append (p := Char.isDigit) ipd ('.' :: frd) hip hdot
  have hd := dropWhile_all_append (p := Char.isDigit) ipd ('.' :: frd) hip hdot
  have hipne' : ipd.isEmpty = false := by
    cases ipd with
    | nil => exact absurd rfl hipne
    | cons a l => rfl
  unfold floatCore
  simp only [ht, hd, hfr, hipne', Bool.false_and, Bool.not_false, Bool.true_and]
  rfl

theorem floatCore_digits (ds : List Char)
    (hdig : ds.all Char.isDigit = true) (hne : ds ≠ []) :
    floatCore ds = some ((natFromDigits ds : ℚ)) := by
  have ht : ds.takeWhile Char.isDigit = ds := List.takeWhile_eq_self_iff.mpr (by
    intro c hc
    exact List.all_eq_true.mp hdig c hc)
  have hd : ds.dropWhile Char.isDigit = [] := List.dropWhile_eq_nil_iff.mpr (by
    intro c hc
    exact List.all_eq_true.mp hdig c hc)
  have hne' : ds.isEmpty = false := by
    cases ds with
    | nil => exact absurd rfl hne
    | cons a l => rfl
  unfold floatCore
  simp only [ht, hd, hne']
  rfl

theorem pyFloat_head_digit (c : Char) (cs : List Char) (hc : c.isDigit = true) :
    pyFloat ⟨c :: cs⟩ = floatCore (c :: cs) := by
  have hc1 : c ≠ '-' := by
    intro h; rw [h] at hc; exact absurd hc (by decide)
  have hc2 : c ≠ '+' := by
    intro h; rw [h] at hc; exact absurd hc (by decide)
  unfold pyFloat
  simp [hc1, hc2]

theorem pyFloat_intStr (z : ℤ) : pyFloat ⟨intStr z⟩ = some ((z : ℚ)) := by
  by_cases hz : z < 0
  · have h1 : intStr z = '-' :: natStr z.natAbs := by
      unfold intStr
      rw [if_pos hz]
      rfl
    rw [h1]
    show (floatCore (natStr z.natAbs)).map (fun q => -q) = _
    rw [floatCore_digits _ (natStr_all_digits _) (natStr_ne_nil _), natFromDigits_natStr]
    simp only [Option.map_some', Option.some.injEq]
    push_cast [Int.cast_natAbs]
    rw [abs_of_neg (by exact_mod_cast hz)]
    ring
  · have h1 : intStr z = natStr z.natAbs := by
      unfold intStr
      rw [if_neg hz]
      rfl
    rw [h1]
    obtain ⟨c, cs, hcons⟩ : ∃ c cs, natStr z.natAbs = c :: cs := by
      cases h : natStr z.natAbs with
      | nil => exact absurd h (natStr_ne_nil _)
      | cons c cs => exact ⟨c, cs, rfl⟩
    have hc : c.isDigit = true := by
      have := natStr_all_digits z.natAbs
      rw [hcons] at this
      simp only [List.all_cons, Bool.and_eq_true] at this
      exact this.1
    rw [hcons, pyFloat_head_digit c cs hc, ← hcons,
      floatCore_digits _ (natStr_all_digits _) (natStr_ne_nil _), natFromDigits_natStr]
    simp only [Option.some.injEq]
    push_cast [Int.cast_natAbs]
    rw [abs_of_nonneg (by exact_mod_cast not_lt.mp hz)]

theorem fracDigits_all_digits (fr : ℕ) : (fracDigits fr).all Char.isDigit = true := by
  unfold fracDigits
  split
  · simp [isDigit_digChar]
  · split
    · simp [isDigit_digChar]
    · simp [isDigit_digChar]

theorem fracDigits_val (fr : ℕ) (h : fr < 1000) :
    (natFromDigits (fracDigits fr) : ℚ) / (10 : ℚ) ^ (fracDigits fr).length =
      (fr : ℚ) / 1000 := by
  unfold fracDigits
  split
  · have hv : natFromDigits [digChar (fr / 100), digChar (fr / 10), digChar fr] = fr := by
      simp only [natFromDigits, List.foldl_cons, List.foldl_nil, charVal_digChar]
      omega
    rw [hv]
    norm_num
  · split
    · rename_i h10 h100
      have hv : natFromDigits [digChar (fr / 100), digChar (fr / 10)] = fr / 10 := by
        simp only [natFromDigits, List.foldl_cons, List.foldl_nil, charVal_digChar]
        omega
      rw [hv]
      have h2 : (fr / 10) * 1000 = fr * 100 := by omega
      rw [div_eq_div_iff (by positivity) (by norm_num)]
      calc ((fr / 10 : ℕ) : ℚ) * 1000 = (((fr / 10) * 1000 : ℕ) : ℚ) := by push_cast; ring
        _ = ((fr * 100 : ℕ) : ℚ) := by rw [h2]
        _ = (fr : ℚ) * 10 ^ ([digChar (fr / 100), digChar (fr / 10)]).length := by
              push_cast; norm_num
    · rename_i h10 h100
      have hv : natFromDigits [digChar (fr / 100)] = fr / 100 := by
        simp only [natFromDigits, List.foldl_cons, List.foldl_nil, charVal_digChar]
        omega
      rw [hv]
      have h2 : (fr / 100 : ℕ) * 1000 = fr * 10 := by omega
      rw [div_eq_div_iff (by positivity) (by norm_num)]
      rw [show ((10:ℚ) ^ ([digChar (fr / 100)]).length) = 10 by norm_num]
      calc ((fr / 100 : ℕ) : ℚ) * 1000 = (((fr / 100 : ℕ) * 1000 : ℕ) : ℚ) := by push_cast; ring
        _ = ((fr * 10 : ℕ) : ℚ) := by rw [h2]
        _ = (fr : ℚ) * 10 := by push_cast; ring

theorem pyFloat_floatStr (q : ℚ) (hq : ∃ z : ℤ, q = (z : ℚ) / 1000) :
    pyFloat ⟨floatStr q⟩ = some q := by
  have hm := milliOf_spec q hq
  set m := milliOf q with hmdef
  have hq1000 : q = (m : ℚ) / 1000 := by
    rw [hm]
    field_simp
  set a := m.natAbs with hadef
  have hfr : a % 1000 < 1000 := Nat.mod_lt _ (by norm_num)
  have hcore : floatCore (natStr (a / 1000) ++ '.' :: fracDigits (a % 1000)) =
      some ((a : ℚ) / 1000) := by
    rw [floatCore_digits_dot _ _ (natStr_all_digits _) (natStr_ne_nil _)
        (fracDigits_all_digits _), natFromDigits_natStr, fracDigits_val _ hfr]
    have hsum : ((a / 1000 : ℕ) : ℚ) + ((a % 1000 : ℕ) : ℚ) / 1000 =
        ((1000 * (a / 1000) + a % 1000 : ℕ) : ℚ) / 1000 := by
      push_cast
      ring
    have hna : 1000 * (a / 1000) + a % 1000 = a := by omega
    rw [hsum, hna]
  by_cases hneg : m < 0
  · have h1 : floatStr q = '-' :: (natStr (a / 1000) ++ '.' :: fracDigits (a % 1000)) := by
      show (if m < 0 then ['-'] else []) ++ natStr (a / 1000) ++ '.' :: fracDigits (a % 1000) = _
      rw [if_pos hneg]
      rfl
    rw [h1]
    show (floatCore (natStr (a / 1000) ++ '.' :: fracDigits (a % 1000))).map (fun q => -q) = _
    rw [hcore]
    simp only [Option.map_some', Option.some.injEq]
    rw [hq1000]
    have : ((a : ℕ) : ℚ) = -(m : ℚ) := by
      rw [hadef]
      push_cast [Int.cast_natAbs]
      rw [abs_of_neg (by exact_mod_cast hneg)]
    rw [this]
    ring
  · have h1 : floatStr q = natStr (a / 1000) ++ '.' :: fracDigits (a % 1000) := by
      show (if m < 0 then ['-'] else []) ++ natStr (a / 1000) ++ '.' :: fracDigits (a % 1000) = _
      rw [if_neg hneg]
      rfl
    obtain ⟨c, cs, hcons⟩ : ∃ c cs, natStr (a / 1000) = c :: cs := by
      cases h : natStr (a / 1000) with
      | nil => exact absurd h (natStr_ne_nil _)
      | cons c cs => exact ⟨c, cs, rfl⟩
    have hc : c.isDigit = true := by
      have := natStr_all_digits (a / 1000)
      rw [hcons] at this
      simp only [List.all_cons, Bool.and_eq_true] at this
      exact this.1
    rw [h1, hcons, List.cons_append, pyFloat_head_digit c _ hc, ← List.cons_append, ← hcons,
      hcore]
    simp only [Option.some.injEq]
    rw [hq1000]
    have : ((a : ℕ) : ℚ) = (m : ℚ) := by
      rw [hadef]
      push_cast [Int.cast_natAbs]
      rw [abs_of_nonneg (by exact_mod_cast not_lt.mp hneg)]
    rw [this]

/-- A Python `datetime` value as this program uses it: calendar fields
plus microseconds (`datetime.now()` carries microseconds; the persisted
format keeps only whole seconds). -/
structure Datetime where
  year : ℕ
  month : ℕ
  day : ℕ
  hour : ℕ
  minute : ℕ
  second : ℕ
  micro : ℕ
deriving DecidableEq, Repr

/-- Two right-aligned zero-padded decimal digits (strftime's `%m`, `%d`,
`%H`, `%M`, `%S`). -/
def pad2 (n : ℕ) : List Char := [digChar (n / 10), digChar n]

/-- Four right-aligned zero-padded decimal digits (strftime's `%Y` for
the years this program can observe). -/
def pad4 (n : ℕ) : List Char :=
  [digChar (n / 1000), digChar (n / 100), digChar (n / 10), digChar n]

/-- `t.strftime('%Y-%m-%d %H:%M:%S')`: second precision, microseconds
dropped. -/
def strftimeYmdHMS (t : Datetime) : String :=
  ⟨pad4 t.year ++ '-' :: pad2 t.month ++ '-' :: pad2 t.day ++ ' ' :: pad2 t.hour ++
    ':' :: pad2 t.minute ++ ':' :: pad2 t.second⟩

/-- `datetime.strptime(s, '%Y-%m-%d %H:%M:%S')`: parses the canonical
19-character form the writer produces and validates field ranges
(`ValueError`, i.e. `none`, otherwise); the result has zero
microseconds. -/
def strptimeYmdHMS (s : String) : Option Datetime :=
  match s.data with
  | [y3, y2, y1, y0, '-', m1, m0, '-', d1, d0, ' ', h1, h0, ':', n1, n0, ':', s1, s0] =>
    if ([y3, y2, y1, y0, m1, m0, d1, d0, h1, h0, n1, n0, s1, s0].all Char.isDigit) then
      let y := ((charVal y3 * 10 + charVal y2) * 10 + charVal y1) * 10 + charVal y0
      let mo := charVal m1 * 10 + charVal m0
      let d := charVal d1 * 10 + charVal d0
      let h := charVal h1 * 10 + charVal h0
      let mi := charVal n1 * 10 + charVal n0
      let sec := charVal s1 * 10 + charVal s0
      if 1 ≤ mo ∧ mo ≤ 12 ∧ 1 ≤ d ∧ d ≤ 31 ∧ h ≤ 23 ∧ mi ≤ 59 ∧ sec ≤ 59 then
        some ⟨y, mo, d, h, mi, sec, 0⟩
      else none
    else none
  | _ => none

/-- Field ranges under which the second-precision timestamp format is
injective and round-trips (every `datetime.now()` in this program's
lifetime satisfies them). -/
def ValidDT (t : Datetime) : Prop :=
  t.year ≤ 9999 ∧ 1 ≤ t.month ∧ t.month ≤ 12 ∧ 1 ≤ t.day ∧ t.day ≤ 31 ∧
    t.hour ≤ 23 ∧ t.minute ≤ 59 ∧ t.second ≤ 59

instance (t : Datetime) : Decidable (ValidDT t) := by
  unfold ValidDT
  infer_instance

/-- `t` with its microseconds dropped, as the persisted format stores it. -/
def truncSec (t : Datetime) : Datetime :=
  { t with micro := 0 }

theorem strptime_strftime (t : Datetime) (h : ValidDT t) :
    strptimeYmdHMS (strftimeYmdHMS t) = some (truncSec t) := by
  obtain ⟨hy, hmo1, hmo2, hd1, hd2, hh, hmi, hs⟩ := h
  have hdata : (strftimeYmdHMS t).data =
      [digChar (t.year / 1000), digChar (t.year / 100), digChar (t.year / 10), digChar t.year,
       '-', digChar (t.month / 10), digChar t.month, '-', digChar (t.day / 10), digChar t.day,
       ' ', digChar (t.hour / 10), digChar t.hour, ':', digChar (t.minute / 10), digChar t.minute,
       ':', digChar (t.second / 10), digChar t.second] := rfl
  unfold strptimeYmdHMS
  rw [hdata]
  simp only [List.all_cons, List.all_nil, isDigit_digChar, Bool.and_true, Bool.and_self,
    Bool.true_and, if_true, charVal_digChar]
  have e1 : ((t.year / 1000 % 10 * 10 + t.year / 100 % 10) * 10 + t.year / 10 % 10) * 10 +
      t.year % 10 = t.year := by omega
  have e2 : t.month / 10 % 10 * 10 + t.month % 10 = t.month := by omega
  have e3 : t.day / 10 % 10 * 10 + t.day % 10 = t.day := by omega
  have e4 : t.hour / 10 % 10 * 10 + t.hour % 10 = t.hour := by omega
  have e5 : t.minute / 10 % 10 * 10 + t.minute % 10 = t.minute := by omega
  have e6 : t.second / 10 % 10 * 10 + t.second % 10 = t.second := by omega
  rw [e1, e2, e3, e4, e5, e6]
  rw [if_pos (by omega)]
  rfl

/-- A Python number as this program passes them around: `int` or `float`
(see the header comment for the float model). -/
inductive PyNum where
  | int : ℤ → PyNum
  | float : ℚ → PyNum
deriving DecidableEq, Repr

/-- A cell handed to `csv.writer.writerow`: already a string (the
formatted timestamp) or a number (stringified by the csv module). -/
inductive PyCell where
  | str : String → PyCell
  | num : PyNum → PyCell
deriving DecidableEq, Repr

/-- How `csv.writer` renders one cell (none of this program's cells need
quoting: they contain no delimiter, quote or newline characters). -/
def csvCellStr : PyCell → String
  | .str s => s
  | .num (.int z) => ⟨intStr z⟩
  | .num (.float q) => ⟨floatStr q⟩

/-- One accepted telemetry record as `SerialReaderThread.run` builds it:
`(timestamp, battery, solar, ultrasonic, rssi)`. -/
structure Measurement where
  ts : Datetime
  battery : PyNum
  solar : PyNum
  ultrasonic : PyNum
  rssi : PyNum
deriving DecidableEq, Repr

/-- The row tuple the read loop passes to `write_data_to_file`:
`(timestamp.strftime('%Y-%m-%d %H:%M:%S'), battery, solar, ultrasonic, rssi)`. -/
def measRow (m : Measurement) : List PyCell :=
  [.str (strftimeYmdHMS m.ts), .num m.battery, .num m.solar, .num m.ultrasonic, .num m.rssi]

/-- The header row written on first-ever append. -/
def csvHeader : List String :=
  ["Timestamp", "Battery Voltage (V)", "Solar Voltage (V)", "Ultrasonic Range", "RSSI"]

/-- `write_data_to_file(file_path, data)` from TidePlotter.py.  The file
is `none` when absent, otherwise its list of csv rows.  `fail` abstracts
the open/write raising `IOError` (e.g. disk full): the source wraps the
whole body in `try/except: pass`, so on failure it returns normally; the
second component is the exception propagated to the caller, which is
always `none`.  On success the file is opened in append mode, a header is
written first iff the file did not exist, and each row of `data` is
written. -/
def write_data_to_file (fail : Bool) (f : Option (List (List String)))
    (data : List (List PyCell)) : Option (List (List String)) × Option String :=
  if fail then (f, none)
  else
    let rows := data.map (fun row => row.map csvCellStr)
    match f with
    | none => (some (csvHeader :: rows), none)
    | some old => (some (old ++ rows), none)

/-- One row of the list comprehension in `read_data_from_file`:
`(datetime.strptime(row[0], '%Y-%m-%d %H:%M:%S'), float(row[1]),
float(row[2]), float(row[3]), float(row[4]))`; `none` models the
comprehension raising (bad timestamp, bad float, or too few columns —
extra columns are ignored by the indexing). -/
def decodeRow (row : List String) : Option Measurement :=
  match row with
  | c0 :: c1 :: c2 :: c3 :: c4 :: _ => do
    let t ← strptimeYmdHMS c0
    let v1 ← pyFloat c1
    let v2 ← pyFloat c2
    let v3 ← pyFloat c3
    let v4 ← pyFloat c4
    pure ⟨t, .float v1, .float v2, .float v3, .float v4⟩
  | _ => none

/-- `read_data_from_file(file_path)` from TidePlotter.py: returns `[]`
when the file is absent; otherwise skips the header row and decodes every
remaining row; any exception anywhere (empty file on `next(reader)`, or
any undecodable row mid-comprehension) is caught by the bare
`except: pass` and yields `[]`. -/
def read_data_from_file (f : Option (List (List String))) : List Measurement :=
  match f with
  | none => []
  | some [] => []
  | some (_hdr :: rows) =>
    match rows.mapM decodeRow with
    | some ms => ms
    | none => []

/-- The value of a Python number as `ℚ` (Python `==` compares `int` and
`float` by value). -/
def pyNumVal : PyNum → ℚ
  | .int z => (z : ℚ)
  | .float q => q

/-- What `float(str(n))` leaves of a number: the same value, always of
float type. -/
def floatify (n : PyNum) : PyNum := .float (pyNumVal n)

/-- What a measurement looks like after one trip through the csv file:
timestamp truncated to whole seconds, every number reread as a float. -/
def loadView (m : Measurement) : Measurement :=
  ⟨truncSec m.ts, floatify m.battery, floatify m.solar, floatify m.ultrasonic, floatify m.rssi⟩

/-- Numbers the pipeline can actually put in a measurement: any int, or a
float that is an exact multiple of 1/1000 (all floats here arise as
`int(value) / 1000.0`). -/
def ValidNum : PyNum → Prop
  | .int _ => True
  | .float q => ∃ z : ℤ, q = (z : ℚ) / 1000

/-- A measurement as this pipeline can actually produce it. -/
def ValidMeas (m : Measurement) : Prop :=
  ValidDT m.ts ∧ ValidNum m.battery ∧ ValidNum m.solar ∧ ValidNum m.ultrasonic ∧
    ValidNum m.rssi

theorem pyFloat_csvCellStr (n : PyNum) (h : ValidNum n) :
    pyFloat (csvCellStr (.num n)) = some (pyNumVal n) := by
  cases n with
  | int z => exact pyFloat_intStr z
  | float q => exact pyFloat_floatStr q h

theorem decodeRow_measRow (m : Measurement) (h : ValidMeas m) :
    decodeRow ((measRow m).map csvCellStr) = some (loadView m) := by
  obtain ⟨hts, h1, h2, h3, h4⟩ := h
  show (do
    let t ← strptimeYmdHMS (strftimeYmdHMS m.ts)
    let v1 ← pyFloat (csvCellStr (.num m.battery))
    let v2 ← pyFloat (csvCellStr (.num m.solar))
    let v3 ← pyFloat (csvCellStr (.num m.ultrasonic))
    let v4 ← pyFloat (csvCellStr (.num m.rssi))
    pure (⟨t, .float v1, .float v2, .float v3, .float v4⟩ : Measurement)) =
      some (loadView m)
  rw [strptime_strftime m.ts hts]
  rw [pyFloat_csvCellStr _ h1, pyFloat_csvCellStr _ h2, pyFloat_csvCellStr _ h3,
    pyFloat_csvCellStr _ h4]
  rfl

theorem mapM_decode_all (ms : List Measurement) (h : ∀ m ∈ ms, ValidMeas m) :
    (((ms.map measRow).map (fun row => row.map csvCellStr)).mapM decodeRow) =
      some (ms.map loadView) := by
  induction ms with
  | nil => rfl
  | cons m ms ih =>
    have hm := h m (List.mem_cons_self m ms)
    have hrest := ih (fun x hx => h x (List.mem_cons_of_mem m hx))
    simp only [List.map_cons, List.mapM_cons, decodeRow_measRow m hm, hrest]
    rfl

/-- Writing a list of measurements into an absent store and reading it
back yields the list of `loadView`s, in order. -/
theorem read_write_rows (ms : List Measurement) (h : ∀ m ∈ ms, ValidMeas m) :
    read_data_from_file (write_data_to_file false none (ms.map measRow)).1 =
      ms.map loadView := by
  have hw : (write_data_to_file false none (ms.map measRow)).1 =
      some (csvHeader :: (ms.map measRow).map (fun row => row.map csvCellStr)) := rfl
  rw [hw]
  show (match ((ms.map measRow).map (fun row => row.map csvCellStr)).mapM decodeRow with
    | some out => out
    | none => []) = ms.map loadView
  rw [mapM_decode_all ms h]

/-- One match of the pattern `([A-Za-z])(-?\d+)`: the key letter, whether
the optional sign was present, and the (greedy, nonempty) digit run. -/
structure Tok where
  key : Char
  neg : Bool
  digits : List Char
deriving DecidableEq, Repr

/-- The second capture group as `re.findall` returns it (sign included). -/
def tokStr (t : Tok) : String := ⟨(if t.neg then ['-'] else []) ++ t.digits⟩

/-- The integer value `int(value)` computes for a token. -/
def tokVal (t : Tok) : ℤ :=
  (if t.neg then -1 else 1) * (natFromDigits t.digits : ℤ)

/-- Fuel-driven left-to-right scan for non-overlapping matches of
`([A-Za-z])(-?\d+)`, exactly as `re.findall` scans: at each position try
to match a letter followed by an optional minus and a greedy nonempty
digit run; on success continue after the match, on failure advance one
character.  The fuel only bounds the recursion; `findMatches` supplies
enough. -/
def findMatchesGo : ℕ → List Char → List Tok
  | 0, _ => []
  | _ + 1, [] => []
  | fuel + 1, c :: rest =>
    if c.isAlpha then
      if rest.head? = some '-' then
        let ds := rest.tail.takeWhile Char.isDigit
        if ds.isEmpty then findMatchesGo fuel rest
        else ⟨c, true, ds⟩ :: findMatchesGo fuel (rest.tail.dropWhile Char.isDigit)
      else
        let ds := rest.takeWhile Char.isDigit
        if ds.isEmpty then findMatchesGo fuel rest
        else ⟨c, false, ds⟩ :: findMatchesGo fuel (rest.dropWhile Char.isDigit)
    else findMatchesGo fuel rest

/-- `re.findall(r'([A-Za-z])(-?\d+)', message)` over a character list. -/
def findMatches (l : List Char) : List Tok := findMatchesGo l.length l

theorem findMatchesGo_irrel (fuel : ℕ) :
    ∀ l : List Char, l.length ≤ fuel → findMatchesGo fuel l = findMatchesGo l.length l := by
  induction fuel using Nat.strong_induction_on with
  | _ fuel ih =>
    intro l hl
    match fuel, l with
    | 0, [] => rfl
    | f + 1, [] => rfl
    | f + 1, c :: rest =>
      have hlen : rest.length ≤ f := by
        simp only [List.length_cons] at hl
        omega
      show findMatchesGo (f + 1) (c :: rest) = findMatchesGo (rest.length + 1) (c :: rest)
      simp only [findMatchesGo]
      have htail : rest.tail.length ≤ rest.length := by
        cases rest <;> simp
      have hdw1 : (rest.tail.dropWhile Char.isDigit).length ≤ rest.tail.length :=
        (List.dropWhile_sublist _).length_le
      have hdw2 : (rest.dropWhile Char.isDigit).length ≤ rest.length :=
        (List.dropWhile_sublist _).length_le
      have e1 : findMatchesGo f rest = findMatchesGo rest.length rest := by
        by_cases hf : f = rest.length
        · rw [hf]
        · exact (ih f (by omega) rest hlen).trans
            (ih rest.length (by omega) rest le_rfl).symm
      have e2 : findMatchesGo f (rest.tail.dropWhile Char.isDigit) =
          findMatchesGo rest.length (rest.tail.dropWhile Char.isDigit) := by
        by_cases hf : f = rest.length
        · rw [hf]
        · exact (ih f (by omega) _ (by omega)).trans
            (ih rest.length (by omega) _ (by omega)).symm
      have e3 : findMatchesGo f (rest.dropWhile Char.isDigit) =
          findMatchesGo rest.length (rest.dropWhile Char.isDigit) := by
        by_cases hf : f = rest.length
        · rw [hf]
        · exact (ih f (by omega) _ (by omega)).trans
            (ih rest.length (by omega) _ (by omega)).symm
      rw [e1, e2, e3]

theorem findMatches_nil : findMatches [] = [] := rfl

theorem findMatches_cons_not_alpha (c : Char) (rest : List Char) (h : c.isAlpha = false) :
    findMatches (c :: rest) = findMatches rest := by
  show findMatchesGo (rest.length + 1) (c :: rest) = _
  simp only [findMatchesGo, h]
  rfl

theorem findMatches_cons_alpha_dash (c : Char) (rest : List Char) (h : c.isAlpha = true)
    (hdash : rest.head? = some '-') :
    findMatches (c :: rest) =
      (if (rest.tail.takeWhile Char.isDigit).isEmpty then findMatches rest
       else ⟨c, true, rest.tail.takeWhile Char.isDigit⟩ ::
         findMatches (rest.tail.dropWhile Char.isDigit)) := by
  show findMatchesGo (rest.length + 1) (c :: rest) = _
  simp only [findMatchesGo, h, hdash, if_true]
  have htail : rest.tail.length ≤ rest.length := by
    cases rest <;> simp
  have hdw : (rest.tail.dropWhile Char.isDigit).length ≤ rest.tail.length :=
    (List.dropWhile_sublist _).length_le
  rw [findMatchesGo_irrel rest.length rest le_rfl,
    findMatchesGo_irrel rest.length (rest.tail.dropWhile Char.isDigit) (by omega)]
  rfl

theorem findMatches_cons_alpha_nodash (c : Char) (rest : List Char) (h : c.isAlpha = true)
    (hdash : rest.head? ≠ some '-') :
    findMatches (c :: rest) =
      (if (rest.takeWhile Char.isDigit).isEmpty then findMatches rest
       else ⟨c, false, rest.takeWhile Char.isDigit⟩ ::
         findMatches (rest.dropWhile Char.isDigit)) := by
  show findMatchesGo (rest.length + 1) (c :: rest) = _
  simp only [findMatchesGo, h, hdash, if_true, if_false]
  have hdw : (rest.dropWhile Char.isDigit).length ≤ rest.length :=
    (List.dropWhile_sublist _).length_le
  rw [findMatchesGo_irrel rest.length rest le_rfl,
    findMatchesGo_irrel rest.length (rest.dropWhile Char.isDigit) (by omega)]
  rfl

theorem findMatchesGo_digits (fuel : ℕ) :
    ∀ l : List Char, ∀ t ∈ findMatchesGo fuel l,
      t.digits ≠ [] ∧ t.digits.all Char.isDigit = true := by
  induction fuel with
  | zero => intro l t ht; exact absurd ht (by simp [findMatchesGo])
  | succ fuel ih =>
    intro l t ht
    match l with
    | [] => exact absurd ht (by simp [findMatchesGo])
    | c :: rest =>
      simp only [findMatchesGo] at ht
      by_cases ha : c.isAlpha
      · rw [if_pos ha] at ht
        by_cases hd : rest.head? = some '-'
        · rw [if_pos hd] at ht
          by_cases he : (rest.tail.takeWhile Char.isDigit).isEmpty
          · rw [if_pos he] at ht
            exact ih rest t ht
          · rw [if_neg he] at ht
            rcases List.mem_cons.mp ht with h1 | h1
            · subst h1
              refine ⟨by simpa [List.isEmpty_iff] using he, ?_⟩
              exact List.all_eq_true.mpr (fun x hx => List.mem_takeWhile_imp hx)
            · exact ih _ t h1
        · rw [if_neg hd] at ht
          by_cases he : (rest.takeWhile Char.isDigit).isEmpty
          · rw [if_pos he] at ht
            exact ih rest t ht
          · rw [if_neg he] at ht
            rcases List.mem_cons.mp ht with h1 | h1
            · subst h1
              refine ⟨by simpa [List.isEmpty_iff] using he, ?_⟩
              exact List.all_eq_true.mpr (fun x hx => List.mem_takeWhile_imp hx)
            · exact ih _ t h1
      · rw [if_neg ha] at ht
        exact ih rest t ht

theorem findMatches_digits (l : List Char) :
    ∀ t ∈ findMatches l, t.digits ≠ [] ∧ t.digits.all Char.isDigit = true :=
  findMatchesGo_digits l.length l

theorem pyInt_tokStr (t : Tok) (hne : t.digits ≠ []) (hdig : t.digits.all Char.isDigit = true) :
    pyInt (tokStr t) = some (tokVal t) := by
  unfold tokStr tokVal
  exact pyInt_digits t.digits t.neg hne hdig

/-- The `field_map` dict of `parse_message`. -/
def field_map (c : Char) : Option String :=
  if c = 'V' then some "battery_voltage"
  else if c = 's' then some "solar_voltage"
  else if c = 'S' then some "sensor_id"
  else if c = 'C' then some "msg_count"
  else if c = 'U' then some "ultrasonic_range"
  else if c = 'r' then some "rssi"
  else if c = 'n' then some "signal_to_noise_ratio"
  else none

/-- A Python dict of parsed fields, as an insertion-ordered association
list (as Python dicts are). -/
abbrev Dict := List (String × PyNum)

/-- Python `data[k] = v`: overwrite in place if the key exists, else
append. -/
def dictInsert (d : Dict) (k : String) (v : PyNum) : Dict :=
  match d with
  | [] => [(k, v)]
  | (k', v') :: rest => if k' = k then (k, v) :: rest else (k', v') :: dictInsert rest k v

/-- Python `data.get(k)`. -/
def dictGet (d : Dict) (k : String) : Option PyNum :=
  match d with
  | [] => none
  | (k', v) :: rest => if k' = k then some v else dictGet rest k

/-- One iteration of the `for key, value in matches` loop of
`parse_message`: unknown letters are skipped; `V` and `s` store
`int(value) / 1000.0`, the rest store `int(value)`; a failing `int()`
would abort the whole call (`none`). -/
def parseStep (data : Dict) (t : Tok) : Option Dict :=
  match field_map t.key with
  | none => some data
  | some name =>
    match pyInt (tokStr t) with
    | none => none
    | some v =>
      if t.key = 'V' ∨ t.key = 's' then
        some (dictInsert data name (.float ((v : ℚ) / 1000)))
      else
        some (dictInsert data name (.int v))

/-- `parse_message(message)` from TidePlotter.py: regex scan, then the
field loop; `none` models an exception escaping the call. -/
def parse_message (message : String) : Option Dict :=
  (findMatches message.data).foldlM parseStep []

/-- The stored value for key letter `c` and integer value `v`. -/
def convert (c : Char) (v : ℤ) : PyNum :=
  if c = 'V' ∨ c = 's' then .float ((v : ℚ) / 1000) else .int v

/-- The (always-reached) pure result of the `parse_message` field loop. -/
def parseFieldsStep (data : Dict) (t : Tok) : Dict :=
  match field_map t.key with
  | none => data
  | some name => dictInsert data name (convert t.key (tokVal t))

/-- The pure value `parse_message` always returns (totality is proved in
`parse_message_total`). -/
def parseFields (message : String) : Dict :=
  (findMatches message.data).foldl parseFieldsStep []

theorem parseStep_ok (data : Dict) (t : Tok) (hne : t.digits ≠ [])
    (hdig : t.digits.all Char.isDigit = true) :
    parseStep data t = some (parseFieldsStep data t) := by
  unfold parseStep parseFieldsStep convert
  cases h : field_map t.key with
  | none => rfl
  | some name =>
    rw [pyInt_tokStr t hne hdig]
    by_cases hk : t.key = 'V' ∨ t.key = 's'
    · simp only [if_pos hk]
    · simp only [if_neg hk]

theorem foldlM_parseStep (toks : List Tok)
    (h : ∀ t ∈ toks, t.digits ≠ [] ∧ t.digits.all Char.isDigit = true) :
    ∀ d : Dict, toks.foldlM parseStep d = some (toks.foldl parseFieldsStep d) := by
  induction toks with
  | nil => intro d; rfl
  | cons t toks ih =>
    intro d
    obtain ⟨hne, hdig⟩ := h t (List.mem_cons_self t toks)
    simp only [List.foldlM_cons, parseStep_ok d t hne hdig, Option.bind_eq_bind,
      Option.some_bind, List.foldl_cons]
    exact ih (fun x hx => h x (List.mem_cons_of_mem t hx)) _

/-- `parse_message` never raises: the only conversions it performs are
`int()` on regex-matched optional-sign digit strings, which always
succeed. -/
theorem parse_message_total (message : String) :
    parse_message message = some (parseFields message) :=
  foldlM_parseStep (findMatches message.data) (findMatches_digits message.data) []

theorem dictGet_insert_self (d : Dict) (k : String) (v : PyNum) :
    dictGet (dictInsert d k v) k = some v := by
  induction d with
  | nil => simp [dictInsert, dictGet]
  | cons p rest ih =>
    obtain ⟨k', v'⟩ := p
    by_cases h : k' = k
    · simp [dictInsert, dictGet, h]
    · simp [dictInsert, dictGet, h, ih]

theorem dictGet_insert_ne (d : Dict) (k k' : String) (v : PyNum) (h : k ≠ k') :
    dictGet (dictInsert d k v) k' = dictGet d k' := by
  induction d with
  | nil => simp [dictInsert, dictGet, h]
  | cons p rest ih =>
    obtain ⟨k0, v0⟩ := p
    by_cases h0 : k0 = k
    · subst h0
      simp [dictInsert, dictGet, h]
    · simp [dictInsert, dictGet, h0, ih]

/-- The key letter a field name came from (inverse of `field_map`). -/
def fieldKeyOf (n : String) : Option Char :=
  if n = "battery_voltage" then some 'V'
  else if n = "solar_voltage" then some 's'
  else if n = "sensor_id" then some 'S'
  else if n = "msg_count" then some 'C'
  else if n = "ultrasonic_range" then some 'U'
  else if n = "rssi" then some 'r'
  else if n = "signal_to_noise_ratio" then some 'n'
  else none

theorem field_map_inv (c : Char) (n : String) (h : field_map c = some n) :
    fieldKeyOf n = some c := by
  unfold field_map at h
  split_ifs at h with h1 h2 h3 h4 h5 h6 h7
  · injection h with h0
    subst h0
    subst h1
    rfl
  · injection h with h0
    subst h0
    subst h2
    rfl
  · injection h with h0
    subst h0
    subst h3
    rfl
  · injection h with h0
    subst h0
    subst h4
    rfl
  · injection h with h0
    subst h0
    subst h5
    rfl
  · injection h with h0
    subst h0
    subst h6
    rfl
  · injection h with h0
    subst h0
    subst h7
    rfl

theorem field_map_inj (c1 c2 : Char) (n : String)
    (h1 : field_map c1 = some n) (h2 : field_map c2 = some n) : c1 = c2 := by
  have e1 := field_map_inv c1 n h1
  have e2 := field_map_inv c2 n h2
  rw [e1] at e2
  exact Option.some.inj e2

/-- The last token in the scan whose key letter is `c`. -/
def lastTok (toks : List Tok) (c : Char) : Option Tok :=
  (toks.filter (fun t => t.key = c)).getLast?

theorem foldl_parseFieldsStep_get (c : Char) (name : String) (hc : field_map c = some name) :
    ∀ (toks : List Tok) (d : Dict),
      dictGet (toks.foldl parseFieldsStep d) name =
        (match lastTok toks c with
         | some t => some (convert c (tokVal t))
         | none => dictGet d name) := by
  intro toks
  induction toks using List.reverseRecOn with
  | nil => intro d; rfl
  | append_singleton ts t ih =>
    intro d
    rw [List.foldl_append]
    simp only [List.foldl_cons, List.foldl_nil]
    unfold lastTok
    rw [List.filter_append]
    by_cases hk : t.key = c
    · have hfil : List.filter (fun t => decide (t.key = c)) [t] = [t] := by
        simp [List.filter, hk]
      rw [hfil, List.getLast?_concat]
      unfold parseFieldsStep
      rw [hk, hc]
      simp only []
      rw [dictGet_insert_self]
    · have hfil : List.filter (fun t => decide (t.key = c)) [t] = [] := by
        simp [List.filter, hk]
      rw [hfil, List.append_nil]
      have hstep : dictGet (parseFieldsStep (ts.foldl parseFieldsStep d) t) name =
          dictGet (ts.foldl parseFieldsStep d) name := by
        unfold parseFieldsStep
        cases hf : field_map t.key with
        | none => rfl
        | some name' =>
          have hne : name' ≠ name := by
            intro he
            subst he
            exact hk (field_map_inj t.key c name' hf hc)
          simp only []
          rw [dictGet_insert_ne _ _ _ _ hne]
      rw [hstep, ih d]
      rfl

/-- What `parse_message` records for each recognized letter: the value of
the last (rightmost) match with that key, converted as the letter
dictates; `none` iff the letter never matches. -/
theorem parseFields_get (message : String) (c : Char) (name : String)
    (hc : field_map c = some name) :
    dictGet (parseFields message) name =
      (lastTok (findMatches message.data) c).map (fun t => convert c (tokVal t)) := by
  unfold parseFields
  rw [foldl_parseFieldsStep_get c name hc (findMatches message.data) []]
  cases lastTok (findMatches message.data) c <;> rfl

theorem fieldKeyOf_inv (c : Char) (n : String) (h : fieldKeyOf n = some c) :
    field_map c = some n := by
  unfold fieldKeyOf at h
  split_ifs at h with h1 h2 h3 h4 h5 h6 h7 <;>
    (injection h with h0; subst h0) <;> simp_all <;> rfl

theorem foldl_parseFieldsStep_none (name : String) (hk : fieldKeyOf name = none) :
    ∀ (toks : List Tok) (d : Dict), dictGet d name = none →
      dictGet (toks.foldl parseFieldsStep d) name = none := by
  intro toks
  induction toks with
  | nil => intro d h; exact h
  | cons t ts ih =>
    intro d h
    rw [List.foldl_cons]
    refine ih _ ?_
    unfold parseFieldsStep
    cases hf : field_map t.key with
    | none => exact h
    | some name' =>
      have hne : name' ≠ name := by
        intro he
        subst he
        rw [field_map_inv t.key name' hf] at hk
        exact Option.noConfusion hk
      simp only []
      rw [dictGet_insert_ne _ _ _ _ hne]
      exact h

/-- Field names the parser never writes are never present. -/
theorem parseFields_get_none (message : String) (name : String)
    (hk : fieldKeyOf name = none) : dictGet (parseFields message) name = none :=
  foldl_parseFieldsStep_none name hk (findMatches message.data) [] rfl

theorem perm_eq_of_length_le_one {α : Type} {l1 l2 : List α}
    (h : l1.Perm l2) (hl : l1.length ≤ 1) : l1 = l2 := by
  have hlen := h.length_eq
  match l1, l2 with
  | [], [] => rfl
  | [a], [b] =>
    have := List.Perm.mem_iff h (a := a)
    simp at this
    rw [this]
  | [], _ :: _ => simp at hlen
  | _ :: _, [] => simp at hlen
  | [a], _ :: _ :: _ => simp at hlen
  | _ :: _ :: _, _ => simp at hl

theorem filter_key_length_le_one (toks : List Tok) (c : Char)
    (h : (toks.map Tok.key).Nodup) :
    (toks.filter (fun t => t.key = c)).length ≤ 1 := by
  induction toks with
  | nil => simp
  | cons t ts ih =>
    simp only [List.map_cons, List.nodup_cons] at h
    obtain ⟨hnot, hnd⟩ := h
    by_cases hk : t.key = c
    · have hnil : ts.filter (fun t => t.key = c) = [] := by
        rw [List.filter_eq_nil_iff]
        intro x hx
        simp only [decide_eq_true_eq]
        intro hxc
        have hmem : x.key ∈ ts.map Tok.key := List.mem_map_of_mem Tok.key hx
        rw [hxc, ← hk] at hmem
        exact hnot hmem
      simp [List.filter_cons, hk, hnil]
    · simp only [List.filter_cons, decide_eq_true_eq]
      rw [if_neg hk]
      exact ih hnd

/-- The observable state of the read loop in `SerialReaderThread.run`:
the in-memory `data` list (seeded from the file, then appended per
accepted frame), the csv file, the `message_received` diagnostic
emissions, and the `data_updated` snapshot emissions. -/
structure IngestState where
  data : List Measurement
  file : Option (List (List String))
  messages : List String
  emits : List (List Measurement)
deriving DecidableEq, Repr

/-- Line 116 of TidePlotter.py:
`len(decoded_line) < 10 or decoded_line[0] != 'S' or len(decoded_line) > 40`
(short-circuit: the length check guards the empty-string index). -/
def prefilterReject (line : String) : Bool :=
  decide (line.length < 10) || decide (line.data.head? ≠ some 'S') ||
    decide (40 < line.length)

/-- Line 115: emit the raw decoded frame, timestamp-prefixed, to the
diagnostic display (happens for every frame, accepted or not). -/
def emitMsg (st : IngestState) (now : Datetime) (line : String) : IngestState :=
  { st with messages := st.messages ++ [strftimeYmdHMS now ++ " :: " ++ line] }

/-- Lines 119-124: the four `parsed_data.get(...)` calls and the
all-present test; the measurement built when all four are present. -/
def mkMeas (parsed : Dict) (now : Datetime) : Option Measurement :=
  match dictGet parsed "battery_voltage", dictGet parsed "solar_voltage",
        dictGet parsed "ultrasonic_range", dictGet parsed "rssi" with
  | some b, some s, some u, some r => some ⟨now, b, s, u, r⟩
  | _, _, _, _ => none

/-- Lines 125-128: append to the in-memory list, write the single row to
the csv file, and emit the updated list as a snapshot. -/
def acceptMeas (st : IngestState) (m : Measurement) : IngestState :=
  { st with
    data := st.data ++ [m]
    file := (write_data_to_file false st.file [measRow m]).1
    emits := st.emits ++ [st.data ++ [m]] }

/-- Lines 118-128: the token scan and everything after it (`none` models
an exception escaping the loop body). -/
def scanAndProcess (st : IngestState) (now : Datetime) (line : String) : Option IngestState :=
  match parse_message line with
  | none => none
  | some parsed =>
    match mkMeas parsed now with
    | some m => some (acceptMeas st m)
    | none => some st

/-- One iteration of the read loop of `SerialReaderThread.run` on a
decoded line (lines 114-128): diagnostic emit, cheap pre-filter, then
parse and accept/reject. -/
def processLine (st : IngestState) (now : Datetime) (line : String) : Option IngestState :=
  let st1 := emitMsg st now line
  if prefilterReject line then some st1
  else scanAndProcess st1 now line

/-- Line 253 of TidePlotter.py (`MainWindow.update_plot`):
`data = self.data[-20000:]`, the window of measurements actually handed
to the plot. -/
def plotWindow (data : List Measurement) : List Measurement :=
  data.drop (data.length - 20000)

/-- A sample capture time for witnesses. -/
def sampleDT : Datetime := ⟨2024, 5, 6, 7, 8, 9, 0⟩

/-- A sample initial loop state for witnesses. -/
def st0 : IngestState := ⟨[], none, [], []⟩

/-- Claim C9: `parse_message` is total — for every input string it
terminates and returns a field mapping without raising: the only `int()`
conversions it performs are on regex-matched optional-sign digit strings,
which always convert. -/
theorem C9_parse_message_total (msg : String) : (parse_message msg).isSome = true := by
  rw [parse_message_total]
  rfl

/-- Claim C3: the pre-filter of the read loop rejects a decoded frame —
returning the loop state unchanged (bar the diagnostic emit) without
invoking the token scan — exactly when its length is under 10, over 40,
or its first character is not `'S'`; all other frames proceed to the
token-scan stage. -/
theorem C3_prefilter (st : IngestState) (now : Datetime) (line : String) :
    (prefilterReject line = true ↔
      (line.length < 10 ∨ 40 < line.length ∨ line.data.head? ≠ some 'S')) ∧
    (prefilterReject line = true →
      processLine st now line = some (emitMsg st now line)) ∧
    (prefilterReject line = false →
      processLine st now line = scanAndProcess (emitMsg st now line) now line) := by
  refine ⟨?_, ?_, ?_⟩
  · unfold prefilterReject
    simp only [Bool.or_eq_true, decide_eq_true_eq]
    tauto
  · intro h
    unfold processLine
    rw [if_pos h]
  · intro h
    unfold processLine
    rw [if_neg (by rw [h]; exact Bool.false_ne_true)]

theorem C3_prefilter_witness :
    (prefilterReject "S1,V4106" = true ∧
      processLine st0 sampleDT "S1,V4106" = some (emitMsg st0 sampleDT "S1,V4106")) ∧
    (prefilterReject "S1,V4106,C55" = false ∧
      processLine st0 sampleDT "S1,V4106,C55" =
        scanAndProcess (emitMsg st0 sampleDT "S1,V4106,C55") sampleDT "S1,V4106,C55") :=
  ⟨⟨by decide, (C3_prefilter st0 sampleDT "S1,V4106").2.1 (by decide)⟩,
   ⟨by decide, (C3_prefilter st0 sampleDT "S1,V4106,C55").2.2 (by decide)⟩⟩

/-- Claim C8: the plot window slice `self.data[-20000:]` never exceeds
20000 entries, and once `20000 + k` measurements have accumulated it is
exactly the last 20000 in arrival order — the suffix after dropping the
`k` oldest (FIFO), leaving the retained order intact. -/
theorem C8_plot_window :
    (∀ data : List Measurement, (plotWindow data).length ≤ 20000) ∧
    (∀ (data : List Measurement) (k : ℕ), data.length = 20000 + k →
      plotWindow data = data.drop k ∧ (plotWindow data).length = 20000 ∧
        data.take k ++ plotWindow data = data) := by
  constructor
  · intro data
    unfold plotWindow
    rw [List.length_drop]
    omega
  · intro data k h
    unfold plotWindow
    have hk : data.length - 20000 = k := by omega
    rw [hk]
    refine ⟨rfl, ?_, List.take_append_drop k data⟩
    rw [List.length_drop]
    omega

/-- A sample measurement for witnesses. -/
def sampleMeas : Measurement :=
  ⟨sampleDT, .float ((4106 : ℚ) / 1000), .float ((6835 : ℚ) / 1000), .int 841, .int (-58)⟩

theorem C8_plot_window_witness :
    plotWindow (List.replicate 20001 sampleMeas) =
      (List.replicate 20001 sampleMeas).drop 1 ∧
    (plotWindow (List.replicate 20001 sampleMeas)).length = 20000 ∧
    (List.replicate 20001 sampleMeas).take 1 ++ plotWindow (List.replicate 20001 sampleMeas) =
      List.replicate 20001 sampleMeas :=
  C8_plot_window.2 (List.replicate 20001 sampleMeas) 1
    (by rw [List.length_replicate])

/-- Claim C1: for every decoded frame text that reaches the parse stage,
a Measurement is appended to the in-memory list, written to the store and
emitted as a snapshot if and only if the parsed fields contain all four
of battery_voltage, solar_voltage, ultrasonic_range and rssi; otherwise
(and in particular for the frame `"S1,V4106"`) the loop state is
unchanged apart from the diagnostic emit; no exception ever escapes one
loop iteration. -/
theorem C1_accept_iff_all_four (st : IngestState) (now : Datetime) (line : String) :
    ((processLine st now line).isSome = true) ∧
    (prefilterReject line = false →
      ((∃ b s u r : PyNum,
          dictGet (parseFields line) "battery_voltage" = some b ∧
          dictGet (parseFields line) "solar_voltage" = some s ∧
          dictGet (parseFields line) "ultrasonic_range" = some u ∧
          dictGet (parseFields line) "rssi" = some r ∧
          processLine st now line =
            some (acceptMeas (emitMsg st now line) ⟨now, b, s, u, r⟩)) ∨
       ((dictGet (parseFields line) "battery_voltage" = none ∨
         dictGet (parseFields line) "solar_voltage" = none ∨
         dictGet (parseFields line) "ultrasonic_range" = none ∨
         dictGet (parseFields line) "rssi" = none) ∧
         processLine st now line = some (emitMsg st now line)))) ∧
    (processLine st now "S1,V4106" = some (emitMsg st now "S1,V4106")) := by
  have hcases : ∀ st1 : IngestState, scanAndProcess st1 now line =
      (match mkMeas (parseFields line) now with
       | some m => some (acceptMeas st1 m)
       | none => some st1) := by
    intro st1
    unfold scanAndProcess
    rw [parse_message_total]
  refine ⟨?_, ?_, ?_⟩
  · unfold processLine
    by_cases h : prefilterReject line
    · rw [if_pos h]
      rfl
    · rw [if_neg h, hcases]
      cases mkMeas (parseFields line) now <;> rfl
  · intro h
    unfold processLine
    rw [if_neg (by rw [h]; exact Bool.false_ne_true), hcases]
    unfold mkMeas
    cases hb : dictGet (parseFields line) "battery_voltage" with
    | none => exact Or.inr ⟨Or.inl rfl, rfl⟩
    | some b =>
      cases hs : dictGet (parseFields line) "solar_voltage" with
      | none => exact Or.inr ⟨Or.inr (Or.inl rfl), rfl⟩
      | some s =>
        cases hu : dictGet (parseFields line) "ultrasonic_range" with
        | none => exact Or.inr ⟨Or.inr (Or.inr (Or.inl rfl)), rfl⟩
        | some u =>
          cases hr : dictGet (parseFields line) "rssi" with
          | none => exact Or.inr ⟨Or.inr (Or.inr (Or.inr rfl)), rfl⟩
          | some r => exact Or.inl ⟨b, s, u, r, rfl, rfl, rfl, rfl, rfl⟩
  · unfold processLine
    rw [if_pos (by decide : prefilterReject "S1,V4106" = true)]

theorem C1_accept_iff_all_four_witness :
    (∃ b s u r : PyNum,
        dictGet (parseFields "S1,V4106,C55") "battery_voltage" = some b ∧
        dictGet (parseFields "S1,V4106,C55") "solar_voltage" = some s ∧
        dictGet (parseFields "S1,V4106,C55") "ultrasonic_range" = some u ∧
        dictGet (parseFields "S1,V4106,C55") "rssi" = some r ∧
        processLine st0 sampleDT "S1,V4106,C55" =
          some (acceptMeas (emitMsg st0 sampleDT "S1,V4106,C55") ⟨sampleDT, b, s, u, r⟩)) ∨
    ((dictGet (parseFields "S1,V4106,C55") "battery_voltage" = none ∨
      dictGet (parseFields "S1,V4106,C55") "solar_voltage" = none ∨
      dictGet (parseFields "S1,V4106,C55") "ultrasonic_range" = none ∨
      dictGet (parseFields "S1,V4106,C55") "rssi" = none) ∧
      processLine st0 sampleDT "S1,V4106,C55" =
        some (emitMsg st0 sampleDT "S1,V4106,C55")) :=
  (C1_accept_iff_all_four st0 sampleDT "S1,V4106,C55").2.1 (by decide)

/-- Claim C2: on the frame `"S1,V4106,C55,U841,s6835,r-58,n12"`,
`parse_message` yields battery_voltage = 4106/1000 = 4.106,
solar_voltage = 6835/1000 = 6.835, ultrasonic_range = 841 and
rssi = -58; and in general, for any frame, the recorded `V`/`s` values
are the matched integer divided by 1000 and the `U`/`r` values are the
raw signed integers. -/
theorem C2_example_and_scaling :
    (dictGet (parseFields "S1,V4106,C55,U841,s6835,r-58,n12") "battery_voltage" =
        some (.float ((4106 : ℚ) / 1000)) ∧
      (4106 : ℚ) / 1000 = 4.106 ∧
      dictGet (parseFields "S1,V4106,C55,U841,s6835,r-58,n12") "solar_voltage" =
        some (.float ((6835 : ℚ) / 1000)) ∧
      (6835 : ℚ) / 1000 = 6.835 ∧
      dictGet (parseFields "S1,V4106,C55,U841,s6835,r-58,n12") "ultrasonic_range" =
        some (.int 841) ∧
      dictGet (parseFields "S1,V4106,C55,U841,s6835,r-58,n12") "rssi" =
        some (.int (-58))) ∧
    (∀ (msg : String) (t : Tok), lastTok (findMatches msg.data) 'V' = some t →
      dictGet (parseFields msg) "battery_voltage" =
        some (.float ((tokVal t : ℚ) / 1000))) ∧
    (∀ (msg : String) (t : Tok), lastTok (findMatches msg.data) 's' = some t →
      dictGet (parseFields msg) "solar_voltage" =
        some (.float ((tokVal t : ℚ) / 1000))) ∧
    (∀ (msg : String) (t : Tok), lastTok (findMatches msg.data) 'U' = some t →
      dictGet (parseFields msg) "ultrasonic_range" = some (.int (tokVal t))) ∧
    (∀ (msg : String) (t : Tok), lastTok (findMatches msg.data) 'r' = some t →
      dictGet (parseFields msg) "rssi" = some (.int (tokVal t))) := by
  refine ⟨⟨rfl, by norm_num, rfl, by norm_num, by decide, by decide⟩, ?_, ?_, ?_, ?_⟩
  · intro msg t h
    rw [parseFields_get msg 'V' "battery_voltage" rfl, h]
    rfl
  · intro msg t h
    rw [parseFields_get msg 's' "solar_voltage" rfl, h]
    rfl
  · intro msg t h
    rw [parseFields_get msg 'U' "ultrasonic_range" rfl, h]
    rfl
  · intro msg t h
    rw [parseFields_get msg 'r' "rssi" rfl, h]
    rfl

theorem C2_example_and_scaling_witness :
    lastTok (findMatches ("S1,V4106,C55,U841,s6835,r-58,n12".data)) 'V' =
      some ⟨'V', false, ['4', '1', '0', '6']⟩ ∧
    dictGet (parseFields "S1,V4106,C55,U841,s6835,r-58,n12") "battery_voltage" =
      some (.float ((tokVal ⟨'V', false, ['4', '1', '0', '6']⟩ : ℚ) / 1000)) :=
  ⟨by decide, C2_example_and_scaling.2.1 "S1,V4106,C55,U841,s6835,r-58,n12"
    ⟨'V', false, ['4', '1', '0', '6']⟩ (by decide)⟩

/-- Claim C5: the parsed value of each recognized field is the converted
value of the last (rightmost) match with that key letter — so duplicate
letters resolve last-wins — and the order of the letter-tokens is
irrelevant: two frames whose match lists are permutations of one another
(with no duplicate keys) parse to identical field lookups. -/
theorem C5_last_wins_order_irrelevant :
    (∀ (msg : String) (c : Char) (name : String), field_map c = some name →
      dictGet (parseFields msg) name =
        (lastTok (findMatches msg.data) c).map (fun t => convert c (tokVal t))) ∧
    (∀ msg1 msg2 : String,
      (findMatches msg1.data).Perm (findMatches msg2.data) →
      ((findMatches msg1.data).map Tok.key).Nodup →
      ∀ name : String,
        dictGet (parseFields msg1) name = dictGet (parseFields msg2) name) := by
  refine ⟨parseFields_get, ?_⟩
  intro msg1 msg2 hperm hnd name
  cases hk : fieldKeyOf name with
  | none => rw [parseFields_get_none msg1 name hk, parseFields_get_none msg2 name hk]
  | some c =>
    have hc := fieldKeyOf_inv c name hk
    rw [parseFields_get msg1 c name hc, parseFields_get msg2 c name hc]
    have hfp := hperm.filter (fun t => decide (t.key = c))
    have hlen := filter_key_length_le_one (findMatches msg1.data) c hnd
    unfold lastTok
    rw [perm_eq_of_length_le_one hfp hlen]

theorem C5_last_wins_order_irrelevant_witness :
    dictGet (parseFields "S1,V4106,C55,U841,s6835,r-58,n12") "battery_voltage" =
      dictGet (parseFields "V4106,S1,C55,U841,s6835,r-58,n12") "battery_voltage" :=
  C5_last_wins_order_irrelevant.2 "S1,V4106,C55,U841,s6835,r-58,n12"
    "V4106,S1,C55,U841,s6835,r-58,n12" (by decide) (by decide) "battery_voltage"

theorem alpha_not_digit (c : Char) (h : c.isAlpha = true) : c.isDigit = false := by
  unfold Char.isAlpha Char.isUpper Char.isLower at h
  unfold Char.isDigit
  simp only [Bool.or_eq_true, Bool.and_eq_true, decide_eq_true_eq] at h
  simp only [Bool.and_eq_false_iff, decide_eq_false_iff_not]
  rcases h with ⟨h1, h2⟩ | ⟨h1, h2⟩
  · right
    intro hle
    exact absurd (UInt32.le_trans h1 hle) (by decide)
  · right
    intro hle
    exact absurd (UInt32.le_trans h1 hle) (by decide)

theorem alpha_ne_dash (c : Char) (h : c.isAlpha = true) : c ≠ '-' := by
  intro he
  rw [he] at h
  exact absurd h (by decide)

/-- Whether the text begins with `-?\d+`, i.e. an optional minus sign
followed by at least one digit (what the regex requires right after the
key letter). -/
def startsWithOptSignInt (l : List Char) : Bool :=
  if l.head? = some '-' then !(l.tail.takeWhile Char.isDigit).isEmpty
  else !(l.takeWhile Char.isDigit).isEmpty

/-- Claim C10: the token scan needs no delimiters and keys each integer
by the single letter immediately before it: of a run of consecutive
letters before a digit run only the last letter becomes the key (in
`"ab12"` the single match is key `'b'`, value `12`, and no recognized
field results), and a letter not immediately followed by an optional-sign
integer produces no match at all. -/
theorem C10_token_scan_shape :
    (findMatches ("ab12".data) = [⟨'b', false, ['1', '2']⟩]) ∧
    (parse_message "ab12" = some []) ∧
    (∀ (c1 c2 : Char) (rest : List Char), c1.isAlpha = true → c2.isAlpha = true →
      findMatches (c1 :: c2 :: rest) = findMatches (c2 :: rest)) ∧
    (∀ (c : Char) (rest : List Char), c.isAlpha = true →
      startsWithOptSignInt rest = false →
      findMatches (c :: rest) = findMatches rest) := by
  have hskip : ∀ (c : Char) (rest : List Char), c.isAlpha = true →
      startsWithOptSignInt rest = false →
      findMatches (c :: rest) = findMatches rest := by
    intro c rest hc hs
    unfold startsWithOptSignInt at hs
    by_cases hdash : rest.head? = some '-'
    · rw [if_pos hdash] at hs
      rw [findMatches_cons_alpha_dash c rest hc hdash]
      rw [if_pos (by simpa using hs)]
    · rw [if_neg hdash] at hs
      rw [findMatches_cons_alpha_nodash c rest hc hdash]
      rw [if_pos (by simpa using hs)]
  refine ⟨by decide, by decide, ?_, hskip⟩
  intro c1 c2 rest h1 h2
  refine hskip c1 (c2 :: rest) h1 ?_
  unfold startsWithOptSignInt
  have hnd : (c2 :: rest).head? ≠ some '-' := by
    simp only [List.head?_cons, ne_eq, Option.some.injEq]
    exact alpha_ne_dash c2 h2
  rw [if_neg hnd]
  rw [List.takeWhile_cons, alpha_not_digit c2 h2]
  rfl

theorem C10_token_scan_shape_witness :
    findMatches ('x' :: 'y' :: "12".data) = findMatches ('y' :: "12".data) ∧
    findMatches ('q' :: ",V5".data) = findMatches (",V5".data) :=
  ⟨C10_token_scan_shape.2.2.1 'x' 'y' "12".data (by decide) (by decide),
   C10_token_scan_shape.2.2.2 'q' ",V5".data (by decide) (by decide)⟩

theorem validMeas_sample : ValidMeas sampleMeas :=
  ⟨by decide, ⟨4106, by norm_num⟩, ⟨6835, by norm_num⟩, trivial, trivial⟩

/-- Claim C4 (counterexample): append-then-load is not the identity on
measurements: a measurement whose ultrasonic_range and rssi are Python
ints comes back from the csv file with those fields as floats (the reader
applies `float()` to every column), so the loaded list differs from the
appended one. -/
theorem C4_counterexample :
    read_data_from_file (write_data_to_file false none [measRow sampleMeas]).1 ≠
      [sampleMeas] := by
  have hv : ∀ m ∈ [sampleMeas], ValidMeas m := by
    intro m hm
    rw [List.mem_singleton] at hm
    subst hm
    exact validMeas_sample
  have h := read_write_rows [sampleMeas] hv
  rw [show ([sampleMeas].map measRow) = [measRow sampleMeas] from rfl] at h
  rw [h]
  intro he
  have h1 : loadView sampleMeas = sampleMeas := by
    injection he
  have h2 := congrArg Measurement.ultrasonic h1
  exact absurd h2 (by decide)

/-- Claim C4 (amended): for every non-empty sequence of pipeline-valid
measurements appended to an absent store, a subsequent load reproduces
the sequence in the same order with every numeric value preserved — but
timestamps truncated to whole seconds and the integer-typed fields
ultrasonic_range and rssi recovered as equal-valued floats (`loadView`),
not with their original types. -/
theorem C4_roundtrip_loadView (ms : List Measurement) (_hne : ms ≠ [])
    (h : ∀ m ∈ ms, ValidMeas m) :
    read_data_from_file (write_data_to_file false none (ms.map measRow)).1 =
      ms.map loadView ∧
    ∀ m ∈ ms, pyNumVal (loadView m).battery = pyNumVal m.battery ∧
      pyNumVal (loadView m).solar = pyNumVal m.solar ∧
      pyNumVal (loadView m).ultrasonic = pyNumVal m.ultrasonic ∧
      pyNumVal (loadView m).rssi = pyNumVal m.rssi := by
  refine ⟨read_write_rows ms h, ?_⟩
  intro m _
  exact ⟨rfl, rfl, rfl, rfl⟩

theorem C4_roundtrip_loadView_witness :
    read_data_from_file (write_data_to_file false none ([sampleMeas].map measRow)).1 =
      [sampleMeas].map loadView ∧
    ∀ m ∈ [sampleMeas], pyNumVal (loadView m).battery = pyNumVal m.battery ∧
      pyNumVal (loadView m).solar = pyNumVal m.solar ∧
      pyNumVal (loadView m).ultrasonic = pyNumVal m.ultrasonic ∧
      pyNumVal (loadView m).rssi = pyNumVal m.rssi :=
  C4_roundtrip_loadView [sampleMeas] (by simp) (by
    intro m hm
    rw [List.mem_singleton] at hm
    subst hm
    exact validMeas_sample)

/-- Claim C6 (counterexample): when the durable write fails, `append`
does not surface an IOError to its caller — the bare `except: pass`
swallows it and the call returns normally with no exception. -/
theorem C6_counterexample :
    ¬ ((write_data_to_file true none [[PyCell.str "x"]]).2.isSome = true) := by
  decide

/-- Claim C6 (amended): on a durable-write failure,
`write_data_to_file` returns normally with no exception surfaced to the
caller (the failure is silently swallowed by `except: pass`). -/
theorem C6_swallows_write_failure (f : Option (List (List String)))
    (data : List (List PyCell)) :
    (write_data_to_file true f data).2 = none := rfl

/-- A row no load can decode (its timestamp column is not a valid
`'%Y-%m-%d %H:%M:%S'` string). -/
def corruptRow : List String := ["garbage", "x", "y", "z", "w"]

/-- Claim C7 (counterexample): a store containing an undecodable row
loads to exactly the same result as an absent store — the empty list —
so the two outcomes are not distinguishable to the caller. -/
theorem C7_counterexample :
    decodeRow corruptRow = none ∧
    read_data_from_file (some [csvHeader, corruptRow]) = read_data_from_file none := by
  decide

theorem mapM_decode_none (rows : List (List String))
    (h : ∃ r ∈ rows, decodeRow r = none) : rows.mapM decodeRow = none := by
  induction rows with
  | nil =>
    obtain ⟨r, hr, _⟩ := h
    exact absurd hr (List.not_mem_nil r)
  | cons a as ih =>
    obtain ⟨r, hr, hnone⟩ := h
    rw [List.mapM_cons]
    rcases List.mem_cons.mp hr with h1 | h1
    · subst h1
      rw [hnone]
      rfl
    · cases ha : decodeRow a with
      | none => rfl
      | some m =>
        have := ih ⟨r, h1, hnone⟩
        simp only [this]
        rfl

/-- Claim C7 (amended): `read_data_from_file` returns the empty list for
an absent store and for an empty store without failing, and it also
returns the empty list whenever any row of the store fails to decode —
corruption is silently mapped to the same empty result as absence, with
no distinct report. -/
theorem C7_load_conflates_corruption :
    read_data_from_file none = [] ∧
    read_data_from_file (some []) = [] ∧
    (∀ (hdr : List String) (rows : List (List String)),
      (∃ r ∈ rows, decodeRow r = none) →
      read_data_from_file (some (hdr :: rows)) = []) := by
  refine ⟨rfl, rfl, ?_⟩
  intro hdr rows h
  show (match rows.mapM decodeRow with
    | some out => out
    | none => []) = []
  rw [mapM_decode_none rows h]

theorem C7_load_conflates_corruption_witness :
    read_data_from_file (some (csvHeader :: [corruptRow])) = [] :=
  C7_load_conflates_corruption.2.2 csvHeader [corruptRow]
    ⟨corruptRow, by simp, by decide⟩
